import Mathlib

/-!
Verification of the two-bit DNA sequence compressor `twoBitCompress`
from `src/twoBitCompressor.cpp`.

The C++ function packs a character sequence into 32-bit words, two bits
per symbol, sixteen symbols per word, least-significant bits first.  We
embed it shallowly: the input `char* seq` of length `seqLen` becomes a
`List Char`, the output buffer `uint32_t* compressedSeq` a function
`Nat → Nat` whose relevant entries stay below `2 ^ 32`, and the body of
the `tbb::parallel_for` lambda a Lean function of the word index.  The
scheduler of the parallel loop is modelled by an arbitrary permutation
of the word indices.
-/

namespace TwoBit

/-- The `switch (seq[j])` statement of the source: the 2-bit code of one
character, `A ↦ 0`, `C ↦ 1`, `G ↦ 2`, `T ↦ 3`, and the `default` arm
maps every other byte to `0`. -/
def twoBitVal (c : Char) : Nat :=
  if c = 'A' then 0
  else if c = 'C' then 1
  else if c = 'G' then 2
  else if c = 'T' then 3
  else 0

/-- `compressedSeqLen = (seqLen + 15) / 16` from the source. -/
def numWords (seqLen : Nat) : Nat := (seqLen + 15) / 16

/-- The inner `for (auto j = start; j < end; j++)` loop.  `word` is the
current value of `compressedSeq[i]` (zeroed before the loop starts),
`shift` the current value of the `shift` variable; each step performs
`compressedSeq[i] |= (twoBitVal << shift)` as 32-bit arithmetic and then
`shift += 2`.  The list argument holds the indices `j` still to be
processed, in increasing order. -/
def compressLoop (seq : List Char) : List Nat → Nat → Nat → Nat
  | [], word, _ => word
  | j :: js, word, shift =>
      compressLoop seq js (word ||| (twoBitVal (seq.getD j 'A') <<< shift) % 2 ^ 32)
        (shift + 2)

/-- The value the lambda body leaves in `compressedSeq[i]`: it zeroes the
word, then runs the inner loop over `[start, end)` with `start = 16*i`
and `end = min(seqLen, start + 16)`. -/
def wordVal (seq : List Char) (i : Nat) : Nat :=
  compressLoop seq (List.range' (16 * i) (min seq.length (16 * i + 16) - 16 * i)) 0 0

/-- The whole output buffer of `twoBitCompress` as a list: entry `i` is
`wordVal seq i`, for `i < numWords seq.length`. -/
def twoBitCompress (seq : List Char) : List Nat :=
  (List.range (numWords seq.length)).map (wordVal seq)

/-- The indices `j` at which the lambda body for word `i` reads `seq[j]`:
exactly the indices handed to the inner loop. -/
def readIndices (seqLen i : Nat) : List Nat :=
  List.range' (16 * i) (min seqLen (16 * i + 16) - 16 * i)

/-- The stores the inner loop performs on `compressedSeq`, in order,
after the initial `compressedSeq[i] = 0`: each iteration of the loop is
the read-modify-write `compressedSeq[i] |= (twoBitVal << shift)`,
recorded as the pair of target index and stored value. -/
def loopWrites (seq : List Char) (i : Nat) : List Nat → Nat → Nat → List (Nat × Nat)
  | [], _, _ => []
  | j :: js, word, shift =>
      (i, word ||| (twoBitVal (seq.getD j 'A') <<< shift) % 2 ^ 32) ::
        loopWrites seq i js (word ||| (twoBitVal (seq.getD j 'A') <<< shift) % 2 ^ 32)
          (shift + 2)

/-- All stores that iteration `i` of the `parallel_for` performs on
`compressedSeq`, in order: the zeroing store `compressedSeq[i] = 0`
followed by the stores of the inner loop. -/
def iterWrites (seq : List Char) (i : Nat) : List (Nat × Nat) :=
  (i, 0) :: loopWrites seq i (List.range' (16 * i) (min seq.length (16 * i + 16) - 16 * i)) 0 0

/-- The successive values taken by the `shift` variable, one per
inner-loop iteration, starting from the given value and increased by 2
after each step. -/
def shiftsUsed : List Nat → Nat → List Nat
  | [], _ => []
  | _ :: js, shift => shift :: shiftsUsed js (shift + 2)

/-- The memory the function touches: the read-only input characters and
the output buffer, a map from word index to stored value. -/
structure MemState where
  seq : List Char
  out : Nat → Nat

/-- Perform one store on the output buffer. -/
def store (out : Nat → Nat) (w : Nat × Nat) : Nat → Nat :=
  fun n => if n = w.1 then w.2 else out n

/-- Run one iteration of the `parallel_for` body: perform its stores on
the output buffer; the input sequence is only read. -/
def execIter (st : MemState) (i : Nat) : MemState :=
  { st with out := (iterWrites st.seq i).foldl store st.out }

/-- Run all scheduled iterations of the `parallel_for` in the order
chosen by the scheduler; a valid schedule is a permutation of
`[0, numWords)`. -/
def execAll (st : MemState) (ord : List Nat) : MemState :=
  ord.foldl execIter st

/-- Helper for the closed form of the inner loop: combine a list of
2-bit codes into one number, least-significant digit first, base 4. -/
def packCodes : List Nat → Nat
  | [] => 0
  | d :: ds => d + 4 * packCodes ds

/-! ### Basic facts about the code mapping and the bit arithmetic -/

theorem twoBitVal_lt (c : Char) : twoBitVal c < 4 := by
  unfold twoBitVal
  split
  · omega
  · split
    · omega
    · split
      · omega
      · split <;> omega

/-- ORing a value shifted past the bits of a small number is addition:
the two operands occupy disjoint bit ranges. -/
theorem lor_shiftLeft_eq_add {a : Nat} (b s : Nat) (h : a < 2 ^ s) :
    a ||| b <<< s = a + b * 2 ^ s := by
  apply Nat.eq_of_testBit_eq
  intro i
  rcases Nat.lt_or_ge i s with hi | hi
  · have hsum : (a + b * 2 ^ s).testBit i = a.testBit i := by
      have hmod := Nat.testBit_mod_two_pow (a + b * 2 ^ s) s i
      rw [Nat.add_mul_mod_self_right, Nat.mod_eq_of_lt h] at hmod
      simp [hi] at hmod
      exact hmod.symm
    rw [Nat.testBit_lor, Nat.testBit_shiftLeft, hsum]
    have : ¬ (i ≥ s) := Nat.not_le.mpr hi
    simp [this]
  · have hdiv : (a + b * 2 ^ s) / 2 ^ s = b := by
      rw [Nat.add_mul_div_right _ _ (Nat.pos_pow_of_pos s (by omega)),
        Nat.div_eq_of_lt h, Nat.zero_add]
    have hsum : (a + b * 2 ^ s).testBit i = b.testBit (i - s) := by
      have hsr := @Nat.testBit_shiftRight s (i - s) (a + b * 2 ^ s)
      rw [Nat.shiftRight_eq_div_pow, hdiv] at hsr
      have hieq : s + (i - s) = i := by omega
      rw [hieq] at hsr
      exact hsr.symm
    have ha : a.testBit i = false :=
      Nat.testBit_eq_false_of_lt
        (lt_of_lt_of_le h (Nat.pow_le_pow_right (by omega) hi))
    rw [Nat.testBit_lor, Nat.testBit_shiftLeft, hsum, ha]
    simp [hi]

theorem packCodes_lt (ds : List Nat) (h : ∀ d ∈ ds, d < 4) :
    packCodes ds < 4 ^ ds.length := by
  induction ds with
  | nil => simp [packCodes]
  | cons d ds ih =>
      have hd : d < 4 := h d (List.mem_cons_self d ds)
      have htail : packCodes ds < 4 ^ ds.length :=
        ih fun x hx => h x (List.mem_cons_of_mem d hx)
      have : (4 : Nat) ^ (d :: ds).length = 4 * 4 ^ ds.length := by
        rw [List.length_cons, pow_succ]
        ring
      rw [this, packCodes]
      omega

/-- Closed form of the inner loop: starting from a word whose bits all
lie below the current shift, the loop adds the base-4 combination of the
codes of the remaining symbols, shifted into place. -/
theorem compressLoop_closed (seq : List Char) :
    ∀ (js : List Nat) (word shift : Nat), word < 2 ^ shift →
      shift + 2 * js.length ≤ 32 →
      compressLoop seq js word shift =
        word + 2 ^ shift * packCodes (js.map fun j => twoBitVal (seq.getD j 'A')) := by
  intro js
  induction js with
  | nil =>
      intro word shift h1 h2
      simp [compressLoop, packCodes]
  | cons j js ih =>
      intro word shift h1 h2
      have hlen : shift + 2 ≤ 32 := by
        simp only [List.length_cons] at h2
        omega
      set v := twoBitVal (seq.getD j 'A') with hv
      have hvlt : v < 4 := twoBitVal_lt _
      have hshl : v <<< shift = v * 2 ^ shift := Nat.shiftLeft_eq v shift
      have hsmall : v <<< shift < 2 ^ 32 := by
        rw [hshl]
        calc v * 2 ^ shift < 4 * 2 ^ shift := by
              have := Nat.pos_pow_of_pos shift (show 0 < 2 by omega)
              exact Nat.mul_lt_mul_of_lt_of_le hvlt (le_refl _) this
          _ = 2 ^ (shift + 2) := by rw [pow_succ, pow_succ]; ring
          _ ≤ 2 ^ 32 := Nat.pow_le_pow_right (by omega) hlen
      have hmod : (v <<< shift) % 2 ^ 32 = v <<< shift := Nat.mod_eq_of_lt hsmall
      have hstep : word ||| (v <<< shift) % 2 ^ 32 = word + v * 2 ^ shift := by
        rw [hmod, lor_shiftLeft_eq_add v shift h1]
      have hbound : word + v * 2 ^ shift < 2 ^ (shift + 2) := by
        have h4 : (2 : Nat) ^ (shift + 2) = 4 * 2 ^ shift := by
          rw [pow_succ, pow_succ]; ring
        have : v * 2 ^ shift ≤ 3 * 2 ^ shift :=
          Nat.mul_le_mul_right _ (by omega)
        omega
      have htail : shift + 2 + 2 * js.length ≤ 32 := by
        simp only [List.length_cons] at h2
        omega
      rw [compressLoop, ← hv, hstep]
      rw [ih (word + v * 2 ^ shift) (shift + 2) hbound htail]
      simp only [List.map_cons, packCodes]
      rw [pow_succ, pow_succ]
      ring

theorem packCodes_digit :
    ∀ ds : List Nat, (∀ d ∈ ds, d < 4) → ∀ k, k < ds.length →
      packCodes ds / 4 ^ k % 4 = ds.getD k 0 := by
  intro ds
  induction ds with
  | nil => intro _ k hk; simp at hk
  | cons d ds ih =>
      intro h k hk
      cases k with
      | zero =>
          have hd : d < 4 := h d (List.mem_cons_self d ds)
          simp only [packCodes, pow_zero, Nat.div_one, List.getD_cons_zero]
          rw [Nat.add_mul_mod_self_left, Nat.mod_eq_of_lt hd]
      | succ k =>
          have hd : d < 4 := h d (List.mem_cons_self d ds)
          have hk2 : k < ds.length := by
            simp only [List.length_cons] at hk
            omega
          have hdiv : packCodes (d :: ds) / 4 = packCodes ds := by
            rw [packCodes, Nat.add_mul_div_left _ _ (show 0 < 4 by omega),
              Nat.div_eq_of_lt hd, Nat.zero_add]
          rw [pow_succ, mul_comm (4 ^ k) 4, ← Nat.div_div_eq_div_mul, hdiv,
            List.getD_cons_succ]
          exact ih (fun x hx => h x (List.mem_cons_of_mem d hx)) k hk2

/-- The length of the index list handed to the inner loop for word `i`. -/
theorem wordSpan_le (seqLen i : Nat) :
    min seqLen (16 * i + 16) - 16 * i ≤ 16 := by omega

/-- Closed form of one packed word: the base-4 combination of the codes
of the symbols of its range. -/
theorem wordVal_eq (seq : List Char) (i : Nat) :
    wordVal seq i =
      packCodes ((List.range' (16 * i) (min seq.length (16 * i + 16) - 16 * i)).map
        fun j => twoBitVal (seq.getD j 'A')) := by
  have hlen : (List.range' (16 * i) (min seq.length (16 * i + 16) - 16 * i)).length ≤ 16 := by
    rw [List.length_range']
    exact wordSpan_le seq.length i
  have h := compressLoop_closed seq
    (List.range' (16 * i) (min seq.length (16 * i + 16) - 16 * i)) 0 0
    (by norm_num) (by omega)
  rw [wordVal, h]
  omega

theorem wordVal_lt (seq : List Char) (i : Nat) :
    wordVal seq i < 4 ^ (min seq.length (16 * i + 16) - 16 * i) := by
  rw [wordVal_eq]
  have h := packCodes_lt
    ((List.range' (16 * i) (min seq.length (16 * i + 16) - 16 * i)).map
      fun j => twoBitVal (seq.getD j 'A'))
    (by
      intro d hd
      rcases List.mem_map.mp hd with ⟨j, _, rfl⟩
      exact twoBitVal_lt _)
  rwa [List.length_map, List.length_range'] at h

/-- **C1.** Word `i` of the output holds exactly the symbols of positions
`[16*i, min(seqLen, 16*i + 16))`: for every `k < 16` with
`16*i + k < seqLen`, bits `[2k, 2k+1]` of word `i` (extracted by
shifting right `2k` bits and keeping the low two bits) are the 2-bit
code of the symbol at position `16*i + k`, under the fixed mapping
`A = 00`, `C = 01`, `G = 10`, `T = 11`, any other byte `= 00`. -/
theorem word_bit_layout (seq : List Char) (i k : Nat)
    (hi : i < numWords seq.length) (hk : k < 16) (hik : 16 * i + k < seq.length) :
    twoBitVal 'A' = 0 ∧ twoBitVal 'C' = 1 ∧ twoBitVal 'G' = 2 ∧ twoBitVal 'T' = 3 ∧
    wordVal seq i >>> (2 * k) % 4 = twoBitVal (seq.get ⟨16 * i + k, hik⟩) := by
  refine ⟨rfl, rfl, rfl, rfl, ?_⟩
  have hspan : k < min seq.length (16 * i + 16) - 16 * i := by omega
  have hlen : k < ((List.range' (16 * i) (min seq.length (16 * i + 16) - 16 * i)).map
      fun j => twoBitVal (seq.getD j 'A')).length := by
    rw [List.length_map, List.length_range']
    exact hspan
  have hpow : (2 : Nat) ^ (2 * k) = 4 ^ k := by
    rw [pow_mul]
    norm_num
  rw [Nat.shiftRight_eq_div_pow, hpow, wordVal_eq]
  rw [packCodes_digit _ (by
      intro d hd
      rcases List.mem_map.mp hd with ⟨j, _, rfl⟩
      exact twoBitVal_lt _) k hlen]
  rw [List.getD_eq_getElem _ _ hlen, List.getElem_map]
  have hr : k < (List.range' (16 * i) (min seq.length (16 * i + 16) - 16 * i)).length := by
    rw [List.length_range']
    exact hspan
  rw [List.getElem_range' k hr]
  simp only [one_mul]
  rw [List.getD_eq_getElem _ _ hik]
  rfl

/-- **C1 witness.** The layout theorem applied to the sequence `GACT`,
word 0, symbol index 2 (the `C`). -/
theorem word_bit_layout_witness :
    twoBitVal 'A' = 0 ∧ twoBitVal 'C' = 1 ∧ twoBitVal 'G' = 2 ∧ twoBitVal 'T' = 3 ∧
    wordVal ['G', 'A', 'C', 'T'] 0 >>> (2 * 2) % 4 =
      twoBitVal ((['G', 'A', 'C', 'T'] : List Char).get ⟨16 * 0 + 2, by decide⟩) :=
  word_bit_layout ['G', 'A', 'C', 'T'] 0 2 (by decide) (by decide) (by decide)

/-- **C2.** Encoding the 4-symbol sequence `GACT` yields exactly the one
word `0b11010010 = 210`. -/
theorem gact_canonical : twoBitCompress ['G', 'A', 'C', 'T'] = [210] := by decide

/-! ### Congruence: the output depends on the input only through the codes -/

theorem compressLoop_congr (s1 s2 : List Char) :
    ∀ js : List Nat, (∀ j ∈ js, twoBitVal (s1.getD j 'A') = twoBitVal (s2.getD j 'A')) →
      ∀ word shift, compressLoop s1 js word shift = compressLoop s2 js word shift := by
  intro js
  induction js with
  | nil => intro _ word shift; rfl
  | cons j js ih =>
      intro h word shift
      rw [compressLoop, compressLoop, h j (List.mem_cons_self j js)]
      exact ih (fun x hx => h x (List.mem_cons_of_mem j hx)) _ _

theorem twoBitCompress_congr (s1 s2 : List Char) (hlen : s1.length = s2.length)
    (h : ∀ j, j < s1.length → twoBitVal (s1.getD j 'A') = twoBitVal (s2.getD j 'A')) :
    twoBitCompress s1 = twoBitCompress s2 := by
  unfold twoBitCompress
  rw [hlen]
  apply List.map_congr_left
  intro i _
  unfold wordVal
  rw [hlen]
  apply compressLoop_congr
  intro j hj
  have hmem := List.mem_range'_1.mp hj
  apply h
  omega

/-- **C3.** A byte outside `{A, C, G, T}` is encoded without any error
as the code `00`, bit-identically to encoding `'A'` at the same
position, and no other part of the output differs. -/
theorem degenerate_symbol (seq : List Char) (p : Nat) (c : Char)
    (hA : c ≠ 'A') (hC : c ≠ 'C') (hG : c ≠ 'G') (hT : c ≠ 'T') :
    twoBitVal c = 0 ∧ twoBitVal c = twoBitVal 'A' ∧
    twoBitCompress (seq.set p c) = twoBitCompress (seq.set p 'A') := by
  have hc : twoBitVal c = 0 := by
    unfold twoBitVal
    simp [hA, hC, hG, hT]
  refine ⟨hc, by rw [hc]; rfl, ?_⟩
  apply twoBitCompress_congr
  · rw [List.length_set, List.length_set]
  · intro j hj
    have hlt : j < seq.length := by rwa [List.length_set] at hj
    have hj2 : j < (seq.set p 'A').length := by
      rw [List.length_set]
      exact hlt
    rw [List.getD_eq_getElem _ _ hj, List.getD_eq_getElem _ _ hj2]
    rw [List.getElem_set, List.getElem_set]
    by_cases hp : p = j
    · simp only [hp, if_pos trivial, if_true]
      rw [hc]
      rfl
    · simp [hp]

/-- **C3 witness.** Replacing the `'N'` written at position 1 of `GACT`
by `'A'` leaves the output unchanged. -/
theorem degenerate_symbol_witness :
    twoBitVal 'N' = 0 ∧ twoBitVal 'N' = twoBitVal 'A' ∧
    twoBitCompress ((['G', 'A', 'C', 'T'] : List Char).set 1 'N') =
      twoBitCompress ((['G', 'A', 'C', 'T'] : List Char).set 1 'A') :=
  degenerate_symbol ['G', 'A', 'C', 'T'] 1 'N'
    (by decide) (by decide) (by decide) (by decide)

/-- **C4.** The output length is `ceil(seqLen / 16)`: `numWords` is the
least number of 16-symbol words covering the sequence, exactly that many
entries are produced, the boundary sizes 0, 1, 15, 16, 17 give 0, 1, 1,
1, 2 words, and the empty sequence produces nothing at all. -/
theorem length_invariant (seq : List Char) :
    (twoBitCompress seq).length = numWords seq.length ∧
    seq.length ≤ 16 * numWords seq.length ∧
    16 * numWords seq.length < seq.length + 16 ∧
    numWords 0 = 0 ∧ numWords 1 = 1 ∧ numWords 15 = 1 ∧
    numWords 16 = 1 ∧ numWords 17 = 2 ∧
    (seq.length = 0 → twoBitCompress seq = []) := by
  refine ⟨?_, ?_, ?_, rfl, rfl, rfl, rfl, rfl, ?_⟩
  · rw [twoBitCompress, List.length_map, List.length_range]
  · unfold numWords
    omega
  · unfold numWords
    omega
  · intro h
    unfold twoBitCompress numWords
    rw [h]
    rfl

/-- **C4 witness.** The empty sequence: zero words, nothing written. -/
theorem length_invariant_witness : twoBitCompress ([] : List Char) = [] :=
  (length_invariant []).2.2.2.2.2.2.2.2 rfl

/-- **C5.** Tail padding: when `seqLen % 16 ≠ 0`, every bit of the last
output word at position at least `2 * (seqLen % 16)` is 0. -/
theorem tail_padding (seq : List Char) (hmod : seq.length % 16 ≠ 0) (t : Nat)
    (ht : 2 * (seq.length % 16) ≤ t) :
    Nat.testBit ((twoBitCompress seq).getD (numWords seq.length - 1) 0) t = false := by
  have hn : numWords seq.length = (seq.length + 15) / 16 := rfl
  have hnw : 0 < numWords seq.length := by omega
  have hlast : (twoBitCompress seq).getD (numWords seq.length - 1) 0 =
      wordVal seq (numWords seq.length - 1) := by
    unfold twoBitCompress
    rw [List.getD_eq_getElem _ _ (by rw [List.length_map, List.length_range]; omega),
      List.getElem_map, List.getElem_range]
  rw [hlast]
  have hspan : min seq.length (16 * (numWords seq.length - 1) + 16) -
      16 * (numWords seq.length - 1) = seq.length % 16 := by omega
  have hlt := wordVal_lt seq (numWords seq.length - 1)
  rw [hspan] at hlt
  apply Nat.testBit_eq_false_of_lt
  calc wordVal seq (numWords seq.length - 1) < 4 ^ (seq.length % 16) := hlt
    _ = 2 ^ (2 * (seq.length % 16)) := by
        rw [pow_mul]
        norm_num
    _ ≤ 2 ^ t := Nat.pow_le_pow_right (by omega) ht

/-- **C5 witness.** One symbol: the single output word has every bit
from position 2 on equal to 0. -/
theorem tail_padding_witness :
    Nat.testBit ((twoBitCompress ['C']).getD
      (numWords (['C'] : List Char).length - 1) 0) 5 = false :=
  tail_padding ['C'] (by decide) 5 (by decide)

/-! ### The write traces and the scheduled execution -/

theorem loopWrites_fst (seq : List Char) (i : Nat) :
    ∀ (js : List Nat) (word shift : Nat), ∀ w ∈ loopWrites seq i js word shift, w.1 = i := by
  intro js
  induction js with
  | nil => intro word shift w hw; simp [loopWrites] at hw
  | cons j js ih =>
      intro word shift w hw
      rw [loopWrites] at hw
      rcases List.mem_cons.mp hw with h | h
      · rw [h]
      · exact ih _ _ w h

theorem iterWrites_fst (seq : List Char) (i : Nat) :
    ∀ w ∈ iterWrites seq i, w.1 = i := by
  intro w hw
  rcases List.mem_cons.mp hw with h | h
  · rw [h]
  · exact loopWrites_fst seq i _ _ _ w h

theorem loopWrites_length (seq : List Char) (i : Nat) :
    ∀ (js : List Nat) (word shift : Nat),
      (loopWrites seq i js word shift).length = js.length := by
  intro js
  induction js with
  | nil => intro word shift; rfl
  | cons j js ih =>
      intro word shift
      rw [loopWrites, List.length_cons, List.length_cons, ih]

theorem loopWrites_getLastD (seq : List Char) (i : Nat) :
    ∀ (js : List Nat) (word shift : Nat),
      (loopWrites seq i js word shift).getLastD (i, word) =
        (i, compressLoop seq js word shift) := by
  intro js
  induction js with
  | nil => intro word shift; rfl
  | cons j js ih =>
      intro word shift
      rw [loopWrites, List.getLastD_cons, compressLoop]
      exact ih _ _

theorem store_store_same (out : Nat → Nat) (i a b : Nat) :
    store (store out (i, a)) (i, b) = store out (i, b) := by
  funext n
  unfold store
  by_cases h : n = i <;> simp [h]

theorem loopWrites_foldl (seq : List Char) (i : Nat) :
    ∀ (js : List Nat) (word shift : Nat) (out : Nat → Nat),
      (loopWrites seq i js word shift).foldl store (store out (i, word)) =
        store out (i, compressLoop seq js word shift) := by
  intro js
  induction js with
  | nil => intro word shift out; rfl
  | cons j js ih =>
      intro word shift out
      rw [loopWrites, compressLoop, List.foldl_cons, store_store_same]
      exact ih _ _ out

theorem execIter_out (st : MemState) (i : Nat) :
    (execIter st i).out = store st.out (i, wordVal st.seq i) := by
  show (iterWrites st.seq i).foldl store st.out = _
  rw [iterWrites, List.foldl_cons]
  exact loopWrites_foldl st.seq i _ 0 0 st.out

theorem execAll_seq : ∀ (ord : List Nat) (st : MemState), (execAll st ord).seq = st.seq := by
  intro ord
  induction ord with
  | nil => intro st; rfl
  | cons i ord ih => intro st; exact ih (execIter st i)

theorem execAll_out : ∀ (ord : List Nat) (st : MemState) (n : Nat),
    (execAll st ord).out n = if n ∈ ord then wordVal st.seq n else st.out n := by
  intro ord
  induction ord with
  | nil => intro st n; simp [execAll]
  | cons i ord ih =>
      intro st n
      have hstep : (execAll st (i :: ord)).out n = (execAll (execIter st i) ord).out n := rfl
      rw [hstep, ih]
      have hseq : (execIter st i).seq = st.seq := rfl
      rw [hseq, execIter_out]
      by_cases hmem : n ∈ ord
      · simp [hmem, List.mem_cons]
      · by_cases hni : n = i
        · subst hni
          simp [hmem, store, List.mem_cons]
        · simp [hmem, hni, store, List.mem_cons]

/-- **C6 counterexample.** For the one-symbol sequence `A`, the single
word index 0 is stored to twice — once by the zeroing store
`compressedSeq[i] = 0` and once by the in-place OR — not exactly once. -/
theorem single_write_counterexample :
    (iterWrites ['A'] 0).countP (fun w => w.1 == 0) = 2 ∧
    ¬ (iterWrites ['A'] 0).countP (fun w => w.1 == 0) = 1 ∧
    0 < numWords (['A'] : List Char).length := by decide

/-- **C6 amended.** Iteration `i` stores only to word index `i`, with
`1 + min(seqLen - 16*i, 16)` stores (a zeroing store, then one in-place
OR per symbol — the word is accumulated in the output slot itself, not
in a local accumulator written once); the last store leaves the packed
word value. -/
theorem iter_write_pattern (seq : List Char) (i : Nat) (hi : i < numWords seq.length) :
    (∀ w ∈ iterWrites seq i, w.1 = i) ∧
    (iterWrites seq i).length = 1 + (min seq.length (16 * i + 16) - 16 * i) ∧
    (iterWrites seq i).getLastD (i, 0) = (i, wordVal seq i) := by
  refine ⟨iterWrites_fst seq i, ?_, ?_⟩
  · rw [iterWrites, List.length_cons, loopWrites_length, List.length_range']
    omega
  · rw [iterWrites, List.getLastD_cons, loopWrites_getLastD]
    rfl

/-- **C6 amended, witness.** The write pattern of word 0 of `GACT`:
all five stores target index 0 and the last one stores the word 210. -/
theorem iter_write_pattern_witness :
    (∀ w ∈ iterWrites ['G', 'A', 'C', 'T'] 0, w.1 = 0) ∧
    (iterWrites ['G', 'A', 'C', 'T'] 0).length =
      1 + (min (['G', 'A', 'C', 'T'] : List Char).length (16 * 0 + 16) - 16 * 0) ∧
    (iterWrites ['G', 'A', 'C', 'T'] 0).getLastD (0, 0) =
      (0, wordVal ['G', 'A', 'C', 'T'] 0) :=
  iter_write_pattern ['G', 'A', 'C', 'T'] 0 (by decide)

/-- **C7.** The encoder is deterministic and scheduling-independent:
running the word iterations in any scheduled order, on any two initial
output buffers, yields the same value in every populated word slot, and
the empty sequence schedules nothing and leaves the buffers untouched. -/
theorem deterministic_encode (seq : List Char) (out1 out2 : Nat → Nat)
    (ord1 ord2 : List Nat) (n : Nat)
    (h1 : ord1.Perm (List.range (numWords seq.length)))
    (h2 : ord2.Perm (List.range (numWords seq.length))) :
    (n < numWords seq.length →
      (execAll ⟨seq, out1⟩ ord1).out n = (execAll ⟨seq, out2⟩ ord2).out n ∧
      (execAll ⟨seq, out1⟩ ord1).out n = wordVal seq n) ∧
    (seq.length = 0 →
      (execAll ⟨seq, out1⟩ ord1).out n = out1 n ∧
      (execAll ⟨seq, out2⟩ ord2).out n = out2 n) := by
  constructor
  · intro hn
    have hm1 : n ∈ ord1 := h1.mem_iff.mpr (List.mem_range.mpr hn)
    have hm2 : n ∈ ord2 := h2.mem_iff.mpr (List.mem_range.mpr hn)
    rw [execAll_out, execAll_out]
    simp [hm1, hm2]
  · intro h0
    have hz : numWords seq.length = 0 := by
      unfold numWords
      omega
    rw [hz] at h1 h2
    have e1 : ord1 = [] := h1.eq_nil
    have e2 : ord2 = [] := h2.eq_nil
    rw [e1, e2]
    exact ⟨rfl, rfl⟩

/-- **C7 witness.** A 17-symbol sequence, two schedules of its two words
in opposite orders, two different initial buffers: word 1 agrees. -/
theorem deterministic_encode_witness :
    (execAll ⟨List.replicate 17 'C', fun _ => 0⟩ [1, 0]).out 1 =
      (execAll ⟨List.replicate 17 'C', fun _ => 5⟩ [0, 1]).out 1 :=
  ((deterministic_encode (List.replicate 17 'C') (fun _ => 0) (fun _ => 5)
      [1, 0] [0, 1] 1 (by decide) (by decide)).1 (by decide)).1

/-- **C8.** The call mutates only the output words: the input sequence
is unchanged, and every output slot outside `[0, numWords)` keeps its
prior value. -/
theorem frame_effect (st : MemState) (ord : List Nat) (n : Nat)
    (h : ord.Perm (List.range (numWords st.seq.length)))
    (hn : numWords st.seq.length ≤ n) :
    (execAll st ord).seq = st.seq ∧ (execAll st ord).out n = st.out n := by
  refine ⟨execAll_seq ord st, ?_⟩
  rw [execAll_out]
  have hmem : n ∉ ord := by
    intro hmem
    have := List.mem_range.mp (h.mem_iff.mp hmem)
    omega
  simp [hmem]

/-- **C8 witness.** Encoding `GACT` in place leaves the input and the
out-of-range slot 1 untouched. -/
theorem frame_effect_witness :
    (execAll ⟨['G', 'A', 'C', 'T'], fun _ => 42⟩ [0]).seq = ['G', 'A', 'C', 'T'] ∧
    (execAll ⟨['G', 'A', 'C', 'T'], fun _ => 42⟩ [0]).out 1 = 42 :=
  frame_effect ⟨['G', 'A', 'C', 'T'], fun _ => 42⟩ [0] 1 (by decide) (by decide)

/-- **C9.** Memory safety relative to the computed ranges: iteration `i`
reads the input only at indices below `seqLen` and stores only at word
indices below `numWords seqLen = ceil(seqLen/16)`. -/
theorem memory_safety (seq : List Char) (i : Nat) (hi : i < numWords seq.length) :
    (∀ j ∈ readIndices seq.length i, j < seq.length) ∧
    (∀ w ∈ iterWrites seq i, w.1 < numWords seq.length) := by
  constructor
  · intro j hj
    have := List.mem_range'_1.mp hj
    omega
  · intro w hw
    rw [iterWrites_fst seq i w hw]
    exact hi

/-- **C9 witness.** Word 0 of `GACT`: all reads below 4, all writes
below 1. -/
theorem memory_safety_witness :
    (∀ j ∈ readIndices (['G', 'A', 'C', 'T'] : List Char).length 0,
      j < (['G', 'A', 'C', 'T'] : List Char).length) ∧
    (∀ w ∈ iterWrites ['G', 'A', 'C', 'T'] 0,
      w.1 < numWords (['G', 'A', 'C', 'T'] : List Char).length) :=
  memory_safety ['G', 'A', 'C', 'T'] 0 (by decide)

/-! ### The shift amounts of the inner loop -/

theorem shiftsUsed_range' :
    ∀ (n a s0 : Nat), shiftsUsed (List.range' a n) s0 =
      (List.range' a n).map fun j => s0 + 2 * (j - a) := by
  intro n
  induction n with
  | zero => intro a s0; rfl
  | succ n ih =>
      intro a s0
      rw [List.range'_succ, shiftsUsed, List.map_cons]
      congr 1
      · omega
      · rw [ih (a + 1) (s0 + 2)]
        apply List.map_congr_left
        intro j hj
        have := List.mem_range'_1.mp hj
        omega

/-- **C10.** The shift amount of the inner-loop iteration that handles
position `j` of word `i` is `2 * (j - start)` with `start = 16 * i`; it
never exceeds 30, so shifting a 2-bit code left by it stays inside the
32-bit word and loses no code bits. -/
theorem shift_within_word (seq : List Char) (i : Nat) (hi : i < numWords seq.length) :
    shiftsUsed (List.range' (16 * i) (min seq.length (16 * i + 16) - 16 * i)) 0 =
      (List.range' (16 * i) (min seq.length (16 * i + 16) - 16 * i)).map
        (fun j => 2 * (j - 16 * i)) ∧
    ∀ s ∈ shiftsUsed (List.range' (16 * i) (min seq.length (16 * i + 16) - 16 * i)) 0,
      s ≤ 30 ∧ ∀ c : Char, (twoBitVal c <<< s) % 2 ^ 32 = twoBitVal c <<< s := by
  have heq := shiftsUsed_range' (min seq.length (16 * i + 16) - 16 * i) (16 * i) 0
  constructor
  · rw [heq]
    apply List.map_congr_left
    intro j hj
    omega
  · intro s hs
    rw [heq] at hs
    obtain ⟨j, hj, hfj⟩ := List.mem_map.mp hs
    have hjb := List.mem_range'_1.mp hj
    have hsle : s ≤ 30 := by omega
    refine ⟨hsle, ?_⟩
    intro c
    apply Nat.mod_eq_of_lt
    rw [Nat.shiftLeft_eq]
    have hv := twoBitVal_lt c
    calc twoBitVal c * 2 ^ s ≤ 3 * 2 ^ 30 :=
          Nat.mul_le_mul (by omega) (Nat.pow_le_pow_right (by omega) hsle)
      _ < 2 ^ 32 := by norm_num

/-- **C10 witness.** Word 1 of a 20-symbol sequence: the shifts used are
0, 2, 4, 6, all at most 30, and shifting any code by them is exact. -/
theorem shift_within_word_witness :
    shiftsUsed (List.range' (16 * 1)
        (min (List.replicate 20 'T').length (16 * 1 + 16) - 16 * 1)) 0 =
      (List.range' (16 * 1)
        (min (List.replicate 20 'T').length (16 * 1 + 16) - 16 * 1)).map
        (fun j => 2 * (j - 16 * 1)) ∧
    ∀ s ∈ shiftsUsed (List.range' (16 * 1)
        (min (List.replicate 20 'T').length (16 * 1 + 16) - 16 * 1)) 0,
      s ≤ 30 ∧ ∀ c : Char, (twoBitVal c <<< s) % 2 ^ 32 = twoBitVal c <<< s :=
  shift_within_word (List.replicate 20 'T') 1 (by decide)

end TwoBit
